import Mathlib

/-!
Shallow embedding of the portfolio-construction core of `src/portfolio.py`
(the Streamlit portfolio analyzer).  Machine floats are modelled as exact
rationals; pandas/numpy operations are rendered by their documented
semantics; a missing value (NaN) is modelled as `none` of an `Option`.

Conventions:
  * a price history is a list of `(weekIndex, close)` pairs — the
    date-indexed pandas Series `hist` after `.dropna()`;
  * `pd.DataFrame(returns_weekly).cov()` computes pairwise-complete sample
    covariance (`ddof = 1`), i.e. for each pair of columns it uses exactly
    the dates present in both series; pairs with fewer than 2 common
    observations get a NaN entry;
  * `np.round` rounds half to even (banker's rounding);
  * the external SLSQP solver (`scipy.optimize.minimize`) is modelled
    abstractly by its result record `OptResult` (`res.x`, `res.success`);
    the code's own post-processing of that record is embedded exactly.
-/

/-- A holding as entered in the sidebar: a user-supplied integer quantity
together with the externally fetched weekly close history
(`tk.history(period="10y", interval="1wk")["Close"].dropna()`),
as a date-indexed list of `(weekIndex, close)` pairs. -/
structure Holding where
  qty : ℕ
  hist : List (ℕ × ℚ)
deriving DecidableEq, Repr

/-- One row of the per-ticker DataFrame `df` built at lines 69–79 of
`src/portfolio.py` (the fields the numerical core reads: `Qty`,
`Value per Share`, `Expected Return`, and the weekly return series kept in
`returns_weekly`).  `expRet` is `none` when the return series is empty
(pandas mean of an empty series is NaN). -/
structure Row where
  qty : ℕ
  price : ℚ
  expRet : Option ℚ
  rets : List (ℕ × ℚ)
deriving DecidableEq, Repr

/-- The last close `hist.iloc[-1]`, used as the current price (line 63). -/
def lastPrice (hist : List (ℕ × ℚ)) : ℚ :=
  ((hist.getLast?).map Prod.snd).getD 0

/-- Line 64, `hist.pct_change().dropna()`: the fractional change
`p_t / p_{t-1} - 1`, indexed by the later date; the leading NaN is dropped. -/
def retSeries (hist : List (ℕ × ℚ)) : List (ℕ × ℚ) :=
  List.zipWith (fun a b => (b.1, b.2 / a.2 - 1)) hist hist.tail

/-- pandas `Series.mean()` on a plain value list: NaN (`none`) for an empty
series, otherwise the arithmetic mean. -/
def meanOpt (xs : List ℚ) : Option ℚ :=
  if xs = [] then none else some (xs.sum / (xs.length : ℚ))

/-- Arithmetic mean of a (nonempty, guarded by callers) value list. -/
def mean (xs : List ℚ) : ℚ := xs.sum / (xs.length : ℚ)

/-- Line 65, `exp_ret = weekly_ret.mean() * 52`, on the values of a
return series. -/
def expRetAnn (rets : List ℚ) : Option ℚ :=
  (meanOpt rets).map (· * 52)

/-- The observations two date-indexed series have in common: for each date
of `xs` that also occurs in `ys`, the pair of values.  This is the set of
rows pandas uses for the pairwise-complete covariance of the two columns
of `pd.DataFrame(returns_weekly)`. -/
def commonObs (xs ys : List (ℕ × ℚ)) : List (ℚ × ℚ) :=
  xs.filterMap fun a => (ys.find? fun b => b.1 == a.1).map fun b => (a.2, b.2)

/-- One entry of `pd.DataFrame(returns_weekly).cov()` (line 110): sample
covariance (`ddof = 1`) over the pairwise-complete observations, NaN
(`none`) when fewer than 2 observations are shared. -/
def covEntry (xs ys : List (ℕ × ℚ)) : Option ℚ :=
  let ps := commonObs xs ys
  if ps.length < 2 then none
  else
    some (((ps.map fun p => (p.1 - mean (ps.map Prod.fst)) *
      (p.2 - mean (ps.map Prod.snd))).sum) / ((ps.length : ℚ) - 1))

/-- The annualized covariance entry: `... .cov() * 52` (line 110);
`NaN * 52` stays NaN. -/
def covAnn (xs ys : List (ℕ × ℚ)) : Option ℚ :=
  (covEntry xs ys).map (· * 52)

/-- The spec's sample covariance, written from the spec's words: the
`N−1`-denominator sample covariance of two aligned equal-length series,
`Σ (x_i − x̄)(y_i − ȳ) / (N − 1)`. -/
def specSampleCov (xs ys : List ℚ) : ℚ :=
  ((xs.zip ys).map fun p => (p.1 - mean xs) * (p.2 - mean ys)).sum /
    ((xs.length : ℚ) - 1)

/-- Lines 59–67: a holding is skipped (with `st.warning`) exactly when its
(dropna'd) history is empty; otherwise the row is built from the last
close, the annualized mean weekly return, and the weekly return series. -/
def processHolding (h : Holding) : Option Row :=
  if h.hist = [] then none
  else some
    { qty := h.qty
      price := lastPrice h.hist
      expRet := expRetAnn ((retSeries h.hist).map Prod.snd)
      rets := retSeries h.hist }

/-- The message of the `st.error` at line 49. -/
def zeroCapMsg : String := "Enter quantity > 0 for at least one selected ticker."

/-- Everything the numerical core has produced by line 110: the DataFrame
rows, the number of skipped-holding warnings, the total portfolio value, the
as-held weight vector `w0` (line 109), and the annualized covariance matrix
(line 110, `none` = NaN entry). -/
structure Output where
  rows : List Row
  skipped : ℕ
  totalVal : ℚ
  w0 : List ℚ
  cov : List (List (Option ℚ))
deriving DecidableEq, Repr

/-- Lines 47–110 of `src/portfolio.py`: keep the holdings with `qty > 0`
(line 47); stop with the error of line 49 if none remain; otherwise build
the per-ticker rows (skipping empty histories with a warning), the total
value, the current weights `w0 = Total value / total_val`, and the
annualized covariance matrix.  The `sort_values` reordering of `df` is
presentational and omitted; rows stay in input order, which is also the
column order of `returns_weekly`.  `buildOutput` is the straight-line part
after the line-49 capital check, which lives in `runCore`. -/
def buildOutput (data : List Holding) : Output :=
  let rows := data.filterMap processHolding
  let totalVal := (rows.map fun r => r.price * (r.qty : ℚ)).sum
  { rows := rows
    skipped := (data.filter fun h => h.hist = []).length
    totalVal := totalVal
    w0 := rows.map fun r => r.price * (r.qty : ℚ) / totalVal
    cov := rows.map fun ri => rows.map fun rj => covAnn ri.rets rj.rets }

def runCore (holdings : List Holding) : Except String Output :=
  let data := holdings.filter fun h => 0 < h.qty
  if data = [] then .error zeroCapMsg
  else .ok (buildOutput data)

/-- The error message of a run, `none` when the run proceeds. -/
def errMsg (e : Except String Output) : Option String :=
  match e with
  | .error m => some m
  | .ok _ => none

/-- Total value of a completed run (`0` for a failed run). -/
def okTotal (e : Except String Output) : ℚ :=
  ((e.toOption).map Output.totalVal).getD 0

/-- Rows of a completed run. -/
def okRows (e : Except String Output) : List Row :=
  ((e.toOption).map Output.rows).getD []

/-- Current weight vector of a completed run. -/
def okW0 (e : Except String Output) : List ℚ :=
  ((e.toOption).map Output.w0).getD []

/-- Covariance matrix of a completed run. -/
def okCov (e : Except String Output) : List (List (Option ℚ)) :=
  ((e.toOption).map Output.cov).getD []

/-- The result record of `scipy.optimize.minimize` (line 134) as the code
reads it: the final iterate `x` and the convergence flag `success`.  The
solver itself is external; the strongest assumption available about a
converged result is that `x` satisfies the bounds and constraints it was
given, which is expressed by `feasiblePoint` below. -/
structure OptResult where
  x : List ℚ
  success : Bool
deriving DecidableEq, Repr

/-- Line 135, `w_opt = res.x`: the code takes the solver's final iterate
unconditionally — `res.success` is never consulted, there is no fallback
and no flag. -/
def optimizedWeights (res : OptResult) : List ℚ := res.x

/-- Line 132, `bounds = [(row['Value per Share'] / total_val, 1.0) for _, row
in df.iterrows()]`: the lower bound of each weight is the value of
ONE share of the holding as a fraction of total capital. -/
def boundsCode (rows : List Row) (total : ℚ) : List (ℚ × ℚ) :=
  rows.map fun r => (r.price / total, 1)

/-- Line 131, the equality constraint `lambda w: np.sum(w) - 1`. -/
def sumConstraint (w : List ℚ) : ℚ := w.sum - 1

/-- A vector satisfying exactly the constraint set the code passes to
`minimize`: the equality constraint of line 131 and the box bounds of
line 132.  This is what a converged SLSQP result guarantees about
`res.x`. -/
def feasiblePoint (bounds : List (ℚ × ℚ)) (w : List ℚ) : Prop :=
  w.length = bounds.length ∧ sumConstraint w = 0 ∧
    ∀ z ∈ w.zip bounds, z.2.1 ≤ z.1 ∧ z.1 ≤ z.2.2

instance feasiblePointDecidable (bounds : List (ℚ × ℚ)) (w : List ℚ) :
    Decidable (feasiblePoint bounds w) := by
  unfold feasiblePoint; infer_instance

/-- The per-holding floor the claim and §4.3 of the spec describe, written
from the spec's words: the holding's current market value
(`quantity × price`) as a fraction of total capital, with the stated
`1e-6` tolerance. -/
def claimFloorOK (rows : List Row) (total : ℚ) (w : List ℚ) : Prop :=
  ∀ z ∈ w.zip rows, (z.2.qty : ℚ) * z.2.price / total - 1/1000000 ≤ z.1

instance claimFloorOKDecidable (rows : List Row) (total : ℚ) (w : List ℚ) :
    Decidable (claimFloorOK rows total w) := by
  unfold claimFloorOK; infer_instance

/-- Rounding as `np.round` does it — half to even (banker's rounding), as an integer.
The subsequent `.astype(int)` truncates an already-integral float and is
the identity on the rounded value. -/
def roundHalfEven (x : ℚ) : ℤ :=
  if x - ⌊x⌋ < 1/2 then ⌊x⌋
  else if 1/2 < x - ⌊x⌋ then ⌊x⌋ + 1
  else if ⌊x⌋ % 2 = 0 then ⌊x⌋ else ⌊x⌋ + 1

/-- Lines 149–151 for one holding:
`shares = np.round(w * total_val / price).astype(int); shares[shares < 1] = 1`. -/
def sharesOf (w total price : ℚ) : ℤ :=
  let s := roundHalfEven (w * total / price)
  if s < 1 then 1 else s

/-- Lines 150–151 over the whole weight vector. -/
def sharesVec (w : List ℚ) (rows : List Row) (total : ℚ) : List ℤ :=
  List.zipWith (fun wi r => sharesOf wi total r.price) w rows

/-- Line 192, `opt['Total value'].sum()`, for the rounded allocation of
lines 149–157: the total realized value `Σ shares_i × price_i`. -/
def realizedTotal (w : List ℚ) (rows : List Row) (total : ℚ) : ℚ :=
  (List.zipWith (fun wi r => (sharesOf wi total r.price : ℚ) * r.price) w rows).sum

/-- Line 113, `port_sharpe = (port_exp - rf) / port_std if port_std else
np.nan` (and identically `sharpe_opt` at line 189): a plain conditional
expression — when the volatility is exactly `0` (Python falsy) the result
is NaN (`none`), otherwise the quotient; nothing is raised. -/
def sharpeRatio (expRet rf vol : ℚ) : Option ℚ :=
  if vol = 0 then none else some ((expRet - rf) / vol)


/-! ## Helper lemmas -/

lemma roundHalfEven_le (x : ℚ) : (roundHalfEven x : ℚ) ≤ x + 1/2 := by
  have h0 : (⌊x⌋ : ℚ) ≤ x := Int.floor_le x
  unfold roundHalfEven
  split_ifs with h1 h2 h3 <;> push_cast <;> linarith

lemma one_le_roundHalfEven (x : ℚ) (h : (1 : ℚ) ≤ x) : 1 ≤ roundHalfEven x := by
  have hf : (1 : ℤ) ≤ ⌊x⌋ := Int.le_floor.mpr (by exact_mod_cast h)
  unfold roundHalfEven
  split_ifs <;> omega

lemma sharesOf_eq_max (w total price : ℚ) :
    sharesOf w total price = max (roundHalfEven (w * total / price)) 1 := by
  simp only [sharesOf]
  split_ifs with h <;> omega

/-! ## Claim C2 — solver-failure handling -/

/-- Claim C2 counterexample: the claim says a non-converged solve returns
the starting weights unchanged.  In a run whose starting point is
`w0 = [1/2, 1/2]`, a solver result with `success = false` and iterate
`[3/10, 7/10]` is passed through as-is: the code returns the unconverged
iterate, not the starting weights. -/
theorem claim2_counterexample :
    (OptResult.mk [3/10, 7/10] false).success = false ∧
      optimizedWeights ⟨[3/10, 7/10], false⟩ = [3/10, 7/10] ∧
      optimizedWeights ⟨[3/10, 7/10], false⟩ ≠ [1/2, 1/2] := by
  refine ⟨rfl, rfl, ?_⟩
  with_unfolding_all decide

/-- Claim C2 amended: line 135 takes `res.x` unconditionally; the output
is independent of the convergence flag, there is no fallback to the
starting weights and no "unoptimized" flag anywhere in the code. -/
theorem claim2_amended_no_fallback (res : OptResult) :
    optimizedWeights res = res.x ∧
      optimizedWeights ⟨res.x, true⟩ = optimizedWeights ⟨res.x, false⟩ :=
  ⟨rfl, rfl⟩

/-! ## Claim C5 — holdings with too-short histories -/

/-- Claim C5 counterexample: a holding whose history has exactly one
observation is NOT excluded — it is kept, with the last close as its
price, an empty return series and NaN expected return. -/
theorem claim5_counterexample :
    processHolding ⟨1, [(0, 100)]⟩ = some ⟨1, 100, none, []⟩ := by
  with_unfolding_all decide

/-- Claim C5 amended: lines 59–62 exclude a holding (with a non-fatal
`st.warning`, the run proceeding) exactly when its price history is empty;
a single-observation history is kept, yielding an empty return series and
a NaN (undefined) expected return rather than being dropped. -/
theorem claim5_amended_only_empty_excluded (h : Holding) :
    (processHolding h = none ↔ h.hist = []) ∧
      (h.hist.length = 1 →
        (processHolding h).map Row.expRet = some none ∧
          (processHolding h).map Row.rets = some []) := by
  constructor
  · by_cases hh : h.hist = [] <;> simp [processHolding, hh]
  · intro h1
    obtain ⟨a, ha⟩ : ∃ a, h.hist = [a] := by
      cases hh : h.hist with
      | nil => rw [hh] at h1; simp at h1
      | cons a t =>
        rw [hh] at h1
        simp at h1
        exact ⟨a, by rw [h1]⟩
    simp [processHolding, ha, retSeries, expRetAnn, meanOpt]

/-- Claim C5 witness: a concrete single-observation holding is included
with NaN statistics. -/
theorem claim5_witness :
    (processHolding ⟨3, [(7, 42)]⟩).map Row.expRet = some none ∧
      (processHolding ⟨3, [(7, 42)]⟩).map Row.rets = some [] :=
  (claim5_amended_only_empty_excluded ⟨3, [(7, 42)]⟩).2 rfl

/-! ## Claim C6 — allocator rounding with a floor of one share -/

/-- Claim C6: for a holding with strictly positive optimized weight, the
share count of lines 149–151 is the raw share count
`w × total_capital / price` rounded to the nearest integer with the stated
floor of one share, and is at least 1.  (The code applies the same floor
to every holding, so the positivity hypothesis is not even needed.) -/
theorem claim6_shares_round_floor (w total price : ℚ) (_hw : 0 < w) :
    sharesOf w total price = max (roundHalfEven (w * total / price)) 1 ∧
      1 ≤ sharesOf w total price := by
  refine ⟨sharesOf_eq_max w total price, ?_⟩
  rw [sharesOf_eq_max]
  exact le_max_right _ _

/-- Claim C6 witness: weight 1/4 of a $1000 portfolio at price $100 gives
2.5 raw shares, rounded to 2 shares, at least 1. -/
theorem claim6_witness :
    (0 : ℚ) < 1/4 ∧
      (sharesOf (1/4) 1000 100 = max (roundHalfEven ((1/4) * 1000 / 100)) 1 ∧
        1 ≤ sharesOf (1/4) 1000 100) :=
  ⟨by norm_num, claim6_shares_round_floor (1/4) 1000 100 (by norm_num)⟩

/-! ## Claim C9 — Sharpe ratio at zero volatility -/

/-- Claim C9: the conditional expressions at lines 113 and 189 yield NaN
(`none`) when the volatility is exactly 0 and the quotient
`(return − rf) / volatility` otherwise; being plain total expressions they
never raise. -/
theorem claim9_sharpe_nan_guard (e rf v : ℚ) :
    sharpeRatio e rf 0 = none ∧
      (v ≠ 0 → sharpeRatio e rf v = some ((e - rf) / v)) := by
  constructor
  · simp [sharpeRatio]
  · intro hv
    simp [sharpeRatio, hv]

/-- Claim C9 witness: a concrete nonzero volatility takes the quotient
branch. -/
theorem claim9_witness :
    ((1 : ℚ)/10 ≠ 0) ∧ sharpeRatio (2/25) 0 (1/10) = some (((2 : ℚ)/25 - 0) / (1/10)) :=
  ⟨by norm_num, (claim9_sharpe_nan_guard (2/25) 0 (1/10)).2 (by norm_num)⟩

/-! ## Claim C10 — tie-breaking of the share rounding -/

/-- Claim C10: `np.round` (line 150) rounds halves to the nearest even
integer: a raw share count of 2.5 (weight 1/4, capital 1000, price 100)
gives 2 shares and 3.5 (weight 7/20) gives 4 shares — not always upward.
`sharesOf` is a pure function of its inputs, so the tie-breaking is
deterministic across runs. -/
theorem claim10_banker_rounding :
    sharesOf (1/4) 1000 100 = 2 ∧ sharesOf (7/20) 1000 100 = 4 ∧
      roundHalfEven (5/2) = 2 ∧ roundHalfEven (7/2) = 4 := by
  with_unfolding_all decide

/-! ## Claim C1 — the optimizer's constraint set -/

lemma feasiblePoint_zip_rows (rows : List Row) (total : ℚ) (w : List ℚ)
    (hf : feasiblePoint (boundsCode rows total) w) :
    ∀ z ∈ w.zip rows, z.2.price / total ≤ z.1 ∧ z.1 ≤ 1 := by
  obtain ⟨hlen, hsum, hbox⟩ := hf
  intro z hz
  have hm := hbox (Prod.map id (fun r : Row => (r.price / total, (1 : ℚ))) z) (by
    rw [show boundsCode rows total = rows.map (fun r => (r.price / total, (1 : ℚ))) from rfl,
      List.zip_map_right]
    exact List.mem_map_of_mem _ hz)
  simpa using hm

/-- Claim C1 counterexample: the claim's floor is the holding's full market
value over total capital, but line 132 passes only one share's value over
total capital to the solver.  With two holdings of quantity 2 at price 100
(total capital 400), the vector `[1/4, 3/4]` satisfies every constraint
the code gives the solver — so the solver may return it — yet holding 0
sits at 1/4, below its claimed floor `2·100/400 = 1/2` by far more than
the 1e-6 tolerance. -/
theorem claim1_counterexample :
    (([⟨2, 100, none, []⟩, ⟨2, 100, none, []⟩] : List Row).map
        (fun r => r.price * (r.qty : ℚ))).sum = 400 ∧
      feasiblePoint (boundsCode [⟨2, 100, none, []⟩, ⟨2, 100, none, []⟩] 400) [1/4, 3/4] ∧
      ¬ claimFloorOK [⟨2, 100, none, []⟩, ⟨2, 100, none, []⟩] 400 [1/4, 3/4] := by
  with_unfolding_all decide

/-- Claim C1 amended: any weight vector satisfying the constraint set the
code actually passes to `minimize` (the full-investment equality of
line 131 and the bounds of line 132) sums to 1 within 1e-6 and has each
weight between `price_i / total_capital − 1e-6` (one share's value
fraction, not the holding's market-value fraction) and 1. -/
theorem claim1_amended_feasibility (rows : List Row) (total : ℚ) (w : List ℚ)
    (hf : feasiblePoint (boundsCode rows total) w) :
    |w.sum - 1| ≤ 1/1000000 ∧
      ∀ z ∈ w.zip rows, z.2.price / total - 1/1000000 ≤ z.1 ∧ z.1 ≤ 1 := by
  refine ⟨?_, fun z hz => ?_⟩
  · have hsum : w.sum = 1 := by
      have := hf.2.1
      unfold sumConstraint at this
      linarith
    rw [hsum]
    norm_num
  · have hm := feasiblePoint_zip_rows rows total w hf z hz
    exact ⟨by linarith [hm.1], hm.2⟩

/-- Claim C1 witness: a concrete feasible point of the code's constraint
set satisfies the amended bounds. -/
theorem claim1_witness :
    feasiblePoint (boundsCode [⟨2, 100, none, []⟩, ⟨2, 100, none, []⟩] 400) [1/2, 1/2] ∧
      (|([(1 : ℚ)/2, 1/2].sum - 1)| ≤ 1/1000000 ∧
        ∀ z ∈ [(1 : ℚ)/2, 1/2].zip ([⟨2, 100, none, []⟩, ⟨2, 100, none, []⟩] : List Row),
          z.2.price / 400 - 1/1000000 ≤ z.1 ∧ z.1 ≤ 1) :=
  ⟨by with_unfolding_all decide,
    claim1_amended_feasibility [⟨2, 100, none, []⟩, ⟨2, 100, none, []⟩] 400 [1/2, 1/2]
      (by with_unfolding_all decide)⟩

/-! ## Claim C7 — realized value versus available capital -/

lemma sharesOf_mul_le (w total p : ℚ) (hp : 0 < p) (htot : 0 < total)
    (hfloor : p / total ≤ w) :
    (sharesOf w total p : ℚ) * p ≤ w * total + p / 2 := by
  have hraw : (1 : ℚ) ≤ w * total / p := by
    rw [one_le_div hp]
    have h2 : (p / total) * total ≤ w * total :=
      mul_le_mul_of_nonneg_right hfloor (le_of_lt htot)
    rwa [div_mul_cancel₀ _ (ne_of_gt htot)] at h2
  have h1 : (1 : ℤ) ≤ roundHalfEven (w * total / p) := one_le_roundHalfEven _ hraw
  have hs : sharesOf w total p = roundHalfEven (w * total / p) := by
    simp only [sharesOf]
    rw [if_neg (by omega)]
  rw [hs]
  have hle : (roundHalfEven (w * total / p) : ℚ) ≤ w * total / p + 1/2 := roundHalfEven_le _
  calc (roundHalfEven (w * total / p) : ℚ) * p
      ≤ (w * total / p + 1/2) * p := mul_le_mul_of_nonneg_right hle (le_of_lt hp)
    _ = w * total + p / 2 := by
        field_simp
        ring

lemma realizedTotal_le : ∀ (w : List ℚ) (rows : List Row) (total : ℚ),
    0 < total → w.length = rows.length →
    (∀ z ∈ w.zip rows, z.2.price / total ≤ z.1 ∧ 0 < z.2.price) →
    realizedTotal w rows total ≤ total * w.sum + (rows.map Row.price).sum / 2
  | [], rows, total, htot, hlen, hz => by
    have : rows = [] := by
      cases rows with
      | nil => rfl
      | cons r t => simp at hlen
    subst this
    simp [realizedTotal]
  | wi :: w, rows, total, htot, hlen, hz => by
    cases rows with
    | nil => simp at hlen
    | cons r rows =>
      have hhead := hz (wi, r) (by simp)
      have h1 : (sharesOf wi total r.price : ℚ) * r.price ≤ wi * total + r.price / 2 :=
        sharesOf_mul_le wi total r.price hhead.2 htot hhead.1
      have h2 := realizedTotal_le w rows total htot (by simpa using hlen)
        (fun z hz2 => hz z (by simp [hz2]))
      simp only [realizedTotal, List.zipWith_cons_cons, List.sum_cons, List.map_cons] at h2 ⊢
      ring_nf
      ring_nf at h1 h2
      linarith

/-- Claim C7 counterexample: with holdings of quantity 1 and 2 at price
100 (total capital 300), the feasible optimizer output `[1/2, 1/2]` gives
raw share counts of 1.5 each, rounded up to 2 shares each — a realized
total of 400, exceeding the available capital 300 by a third of it.  No
budget check exists in lines 149–158. -/
theorem claim7_counterexample :
    (([⟨1, 100, none, []⟩, ⟨2, 100, none, []⟩] : List Row).map
        (fun r => r.price * (r.qty : ℚ))).sum = 300 ∧
      feasiblePoint (boundsCode [⟨1, 100, none, []⟩, ⟨2, 100, none, []⟩] 300) [1/2, 1/2] ∧
      realizedTotal [1/2, 1/2] [⟨1, 100, none, []⟩, ⟨2, 100, none, []⟩] 300 = 400 ∧
      (300 : ℚ) < 400 := by
  with_unfolding_all decide

/-- Claim C7 amended: for any weight vector satisfying the code's solver
constraints (so each raw share count is at least 1 and the one-share floor
of line 151 never binds), the realized total exceeds the available capital
by at most half the sum of the per-share prices — the actual rounding
allowance; the claim's bound of (approximately) the capital itself does
not hold. -/
theorem claim7_amended_budget_bound (rows : List Row) (total : ℚ) (w : List ℚ)
    (hf : feasiblePoint (boundsCode rows total) w)
    (hpos : ∀ r ∈ rows, 0 < r.price) (htot : 0 < total) :
    realizedTotal w rows total ≤ total + (rows.map Row.price).sum / 2 := by
  have hsum : w.sum = 1 := by
    have := hf.2.1
    unfold sumConstraint at this
    linarith
  have hlen : w.length = rows.length := by
    have := hf.1
    simpa [boundsCode] using this
  have hz : ∀ z ∈ w.zip rows, z.2.price / total ≤ z.1 ∧ 0 < z.2.price := by
    intro z hz
    have hm := feasiblePoint_zip_rows rows total w hf z hz
    exact ⟨hm.1, hpos z.2 (List.of_mem_zip hz).2⟩
  have := realizedTotal_le w rows total htot hlen hz
  rw [hsum] at this
  linarith

/-- Claim C7 witness: a concrete single-holding feasible point respects
the amended budget bound. -/
theorem claim7_witness :
    feasiblePoint (boundsCode [⟨1, 100, none, []⟩] 100) [1] ∧
      realizedTotal [1] [⟨1, 100, none, []⟩] 100 ≤
        100 + (([⟨1, 100, none, []⟩] : List Row).map Row.price).sum / 2 :=
  ⟨by with_unfolding_all decide,
    claim7_amended_budget_bound [⟨1, 100, none, []⟩] 100 [1]
      (by with_unfolding_all decide) (by with_unfolding_all decide) (by norm_num)⟩

/-! ## Claim C3 — annualized return and covariance formulas -/

lemma commonObs_cons_of_ne : ∀ (xs : List (ℕ × ℚ)) (b : ℕ × ℚ) (ys : List (ℕ × ℚ)),
    (∀ x ∈ xs, x.1 ≠ b.1) → commonObs xs (b :: ys) = commonObs xs ys
  | [], _, _, _ => rfl
  | a :: xs, b, ys, h => by
    have hfind : List.find? (fun c => c.1 == a.1) (b :: ys) =
        List.find? (fun c => c.1 == a.1) ys :=
      List.find?_cons_of_neg _ (by
        simp only [beq_iff_eq]
        exact fun e => h a (List.mem_cons_self a xs) e.symm)
    have htail := commonObs_cons_of_ne xs b ys fun x hx => h x (List.mem_cons_of_mem a hx)
    simp only [commonObs, List.filterMap_cons] at htail ⊢
    rw [hfind, htail]

lemma commonObs_aligned : ∀ (xs ys : List (ℕ × ℚ)),
    xs.map Prod.fst = ys.map Prod.fst → (xs.map Prod.fst).Nodup →
    commonObs xs ys = (xs.map Prod.snd).zip (ys.map Prod.snd)
  | [], ys, hd, _ => by
    have hy : ys = [] := by
      cases ys with
      | nil => rfl
      | cons b t => simp at hd
    subst hy
    rfl
  | a :: xs, ys, hd, hnd => by
    cases ys with
    | nil => simp at hd
    | cons b ys =>
      simp only [List.map_cons, List.cons.injEq] at hd
      obtain ⟨hab, hd2⟩ := hd
      simp only [List.map_cons, List.nodup_cons] at hnd
      obtain ⟨hna, hnd2⟩ := hnd
      have hfind : List.find? (fun c => c.1 == a.1) (b :: ys) = some b :=
        List.find?_cons_of_pos _ (by simp [hab])
      have hskip : commonObs xs (b :: ys) = commonObs xs ys :=
        commonObs_cons_of_ne xs b ys (by
          intro x hx e
          apply hna
          have hm : x.1 ∈ List.map Prod.fst xs := List.mem_map_of_mem Prod.fst hx
          rwa [e, ← hab] at hm)
      have hrec := commonObs_aligned xs ys hd2 hnd2
      simp only [commonObs, List.filterMap_cons] at hskip hrec ⊢
      rw [hfind]
      simp only [Option.map_some']
      rw [hskip, hrec]
      simp

lemma covAnn_aligned (xs ys : List (ℕ × ℚ))
    (hd : xs.map Prod.fst = ys.map Prod.fst) (hnd : (xs.map Prod.fst).Nodup)
    (hlen : 2 ≤ xs.length) :
    covAnn xs ys = some (52 * specSampleCov (xs.map Prod.snd) (ys.map Prod.snd)) := by
  have hyslen : xs.length = ys.length := by
    have := congrArg List.length hd
    simpa using this
  have hco := commonObs_aligned xs ys hd hnd
  have hfst : ((xs.map Prod.snd).zip (ys.map Prod.snd)).map Prod.fst = xs.map Prod.snd :=
    List.map_fst_zip _ _ (by simp [hyslen])
  have hsnd : ((xs.map Prod.snd).zip (ys.map Prod.snd)).map Prod.snd = ys.map Prod.snd :=
    List.map_snd_zip _ _ (by simp [hyslen])
  have hzlen : ((xs.map Prod.snd).zip (ys.map Prod.snd)).length = xs.length := by
    simp [List.length_zip, ← hyslen]
  simp only [covAnn, covEntry, hco, hzlen, hfst, hsnd]
  rw [if_neg (by omega)]
  simp only [Option.map_some']
  congr 1
  rw [specSampleCov, mul_comm]
  congr 2
  simp [List.length_map]

/-- Claim C3: for eligible holdings, line 65 computes the annualized
expected return as the series mean times 52 (weekly data), and line 110
computes each covariance entry as the `N−1`-denominator sample covariance
of the two (aligned, equal-dated) series times 52.  `specSampleCov` is the
spec's formula; `expRetAnn`/`covAnn` are the code's computations. -/
theorem claim3_risk_model_formulas (xs ys : List (ℕ × ℚ)) (rs : List ℚ)
    (hd : xs.map Prod.fst = ys.map Prod.fst) (hnd : (xs.map Prod.fst).Nodup)
    (hlen : 2 ≤ xs.length) (hrs : rs ≠ []) :
    expRetAnn rs = some (52 * mean rs) ∧
      covAnn xs ys = some (52 * specSampleCov (xs.map Prod.snd) (ys.map Prod.snd)) :=
  ⟨by simp [expRetAnn, meanOpt, hrs, mean, mul_comm], covAnn_aligned xs ys hd hnd hlen⟩

/-- Claim C3 witness: two concrete aligned two-observation return series
and a concrete nonempty series. -/
theorem claim3_witness :
    expRetAnn [1/10, 1/20] = some (52 * mean [1/10, 1/20]) ∧
      covAnn [(0, 1/10), (1, 1/20)] [(0, 1/20), (1, 1/10)] =
        some (52 * specSampleCov ([((0 : ℕ), (1 : ℚ)/10), (1, 1/20)].map Prod.snd)
          ([((0 : ℕ), (1 : ℚ)/20), (1, 1/10)].map Prod.snd)) :=
  claim3_risk_model_formulas [(0, 1/10), (1, 1/20)] [(0, 1/20), (1, 1/10)] [1/10, 1/20]
    (by with_unfolding_all decide) (by with_unfolding_all decide)
    (by with_unfolding_all decide) (by with_unfolding_all decide)

/-! ## Claims C4 and C8 — run-level error behaviour -/

lemma runCore_of_nil (hs : List Holding) (hall : (hs.filter fun h => 0 < h.qty) = []) :
    runCore hs = .error zeroCapMsg := by
  simp only [runCore]
  rw [if_pos hall]

lemma runCore_of_ne (hs : List Holding) (hall : (hs.filter fun h => 0 < h.qty) ≠ []) :
    runCore hs = .ok (buildOutput (hs.filter fun h => 0 < h.qty)) := by
  simp only [runCore]
  rw [if_neg hall]

lemma buildOutput_w0_eq (data : List Holding) :
    (buildOutput data).w0 = (buildOutput data).rows.map
      (fun r => r.price * (r.qty : ℚ) / (buildOutput data).totalVal) := rfl

/-- Claim C4 counterexample: two holdings whose return series share no
date at all (histories `[(0,10),(1,11),(2,12)]` and `[(10,20),(11,22)]`).
The run does NOT fail — it proceeds, and the off-diagonal entry of the
produced covariance matrix is NaN (`none`).  There is no DataInsufficiency
error anywhere in the code. -/
theorem claim4_counterexample :
    errMsg (runCore [⟨1, [(0, 10), (1, 11), (2, 12)]⟩, ⟨1, [(10, 20), (11, 22)]⟩]) = none ∧
      ((okCov (runCore [⟨1, [(0, 10), (1, 11), (2, 12)]⟩,
        ⟨1, [(10, 20), (11, 22)]⟩])).getD 0 []).getD 1 (some 0) = none := by
  with_unfolding_all decide

/-- Claim C4 amended: when a pair of return series has fewer than 2
overlapping observations, the pandas covariance entry is NaN (`none`) and
the run still proceeds (the only abort in the pipeline is the
zero-quantity check of line 49); the code does continue with an
ill-formed covariance matrix. -/
theorem claim4_amended_nan_no_error (hs : List Holding) (xs ys : List (ℕ × ℚ))
    (hne : (hs.filter fun h => 0 < h.qty) ≠ [])
    (hov : (commonObs xs ys).length < 2) :
    errMsg (runCore hs) = none ∧ covAnn xs ys = none := by
  constructor
  · rw [runCore_of_ne hs hne]
    rfl
  · simp only [covAnn, covEntry]
    rw [if_pos hov]
    rfl

/-- Claim C4 witness: a concrete run with one valid holding proceeds and a
concrete non-overlapping pair has NaN covariance. -/
theorem claim4_witness :
    errMsg (runCore [⟨1, [(0, 10), (1, 11)]⟩]) = none ∧ covAnn [(0, 1)] [(5, 2)] = none :=
  claim4_amended_nan_no_error [⟨1, [(0, 10), (1, 11)]⟩] [(0, 1)] [(5, 2)]
    (by with_unfolding_all decide) (by with_unfolding_all decide)

/-- Claim C8: the run stops with the explicit error of line 49 exactly
when every holding has zero quantity — before any weight is computed —
and otherwise (given each positive-quantity holding has a nonempty
history with a positive last price) the total value is positive and
`w0[i] = price_i × qty_i / total_value`, the code's
`df['Total value'] / total_val` of line 109. -/
theorem claim8_zero_capital (hs : List Holding)
    (hq : ∀ h ∈ hs, 0 < h.qty → h.hist ≠ [] ∧ 0 < lastPrice h.hist) :
    ((∀ h ∈ hs, h.qty = 0) ↔ errMsg (runCore hs) = some zeroCapMsg) ∧
      (errMsg (runCore hs) = none →
        0 < okTotal (runCore hs) ∧
          okW0 (runCore hs) = (okRows (runCore hs)).map
            (fun r => r.price * (r.qty : ℚ) / okTotal (runCore hs))) := by
  by_cases hall : (hs.filter fun h => 0 < h.qty) = []
  · have herr := runCore_of_nil hs hall
    have hzero : ∀ h ∈ hs, h.qty = 0 := by
      intro h hm
      by_contra hne
      have hpos : 0 < h.qty := Nat.pos_of_ne_zero hne
      have hmem : h ∈ hs.filter fun h => 0 < h.qty :=
        List.mem_filter.mpr ⟨hm, by simpa using hpos⟩
      rw [hall] at hmem
      simp at hmem
    refine ⟨⟨fun _ => by rw [herr]; rfl, fun _ => hzero⟩, fun hnone => ?_⟩
    rw [herr] at hnone
    simp [errMsg] at hnone
  · have hok := runCore_of_ne hs hall
    obtain ⟨h0, h0mem⟩ := List.exists_mem_of_ne_nil _ hall
    obtain ⟨h0hs, h0q⟩ : h0 ∈ hs ∧ 0 < h0.qty := by
      have hm := List.mem_filter.mp h0mem
      exact ⟨hm.1, by simpa using hm.2⟩
    have hiff : ¬ ∀ h ∈ hs, h.qty = 0 := fun hz => by
      have := hz h0 h0hs
      omega
    have herrne : errMsg (runCore hs) ≠ some zeroCapMsg := by
      rw [hok]
      simp [errMsg]
    refine ⟨⟨fun hz => absurd hz hiff, fun he => absurd he herrne⟩, fun _ => ?_⟩
    rw [hok]
    simp only [okTotal, okW0, okRows, Except.toOption, Option.map_some', Option.getD_some]
    refine ⟨?_, buildOutput_w0_eq _⟩
    apply List.sum_pos
    · intro x hx
      obtain ⟨r, hr, rfl⟩ := List.mem_map.mp hx
      obtain ⟨h, hhm, hph⟩ := List.mem_filterMap.mp hr
      obtain ⟨hh1, hh2⟩ : h ∈ hs ∧ 0 < h.qty := by
        have hm := List.mem_filter.mp hhm
        exact ⟨hm.1, by simpa using hm.2⟩
      obtain ⟨hhist, hlp⟩ := hq h hh1 hh2
      simp only [processHolding, if_neg hhist, Option.some.injEq] at hph
      rw [← hph]
      exact mul_pos hlp (by exact_mod_cast hh2)
    · obtain ⟨r0, hr0⟩ : ∃ r, processHolding h0 = some r := by
        have hne0 := (hq h0 h0hs h0q).1
        simp [processHolding, hne0]
      have hmem : r0 ∈ (hs.filter fun h => 0 < h.qty).filterMap processHolding :=
        List.mem_filterMap.mpr ⟨h0, h0mem, hr0⟩
      exact List.ne_nil_of_mem (List.mem_map_of_mem _ hmem)

/-- Claim C8 witness: a run with one zero-quantity holding and one holding
of quantity 2 priced 4 proceeds with positive total value 8 and the stated
weight formula. -/
theorem claim8_witness :
    0 < okTotal (runCore [⟨0, []⟩, ⟨2, [(0, 5), (1, 4)]⟩]) ∧
      okW0 (runCore [⟨0, []⟩, ⟨2, [(0, 5), (1, 4)]⟩]) =
        (okRows (runCore [⟨0, []⟩, ⟨2, [(0, 5), (1, 4)]⟩])).map
          (fun r => r.price * (r.qty : ℚ) / okTotal (runCore [⟨0, []⟩, ⟨2, [(0, 5), (1, 4)]⟩])) :=
  (claim8_zero_capital [⟨0, []⟩, ⟨2, [(0, 5), (1, 4)]⟩]
    (by with_unfolding_all decide)).2 (by with_unfolding_all decide)

